import Mathlib

/-!
A verification development for `uperm.h` (namespace `uperm`), a small C++ header that

* counts, by a closed recursion over `size_t` arithmetic, the unique length-`L`
  transposition sequences over `N` elements (`num_unique_pairs`,
  `num_unique_pairs_ge_min`, `num_unique_permutations_ge_min`,
  `num_unique_permutations`),
* enumerates those sequences depth-first with a monotonically increasing
  lower-index rule (`inner_permutation_loop`, `get_all_unique_permutations`), and
* applies a sequence of index swaps to a concrete collection
  (`execute_permutations`).

The C++ code is embedded shallowly:

* `size_t` arithmetic is `Nat` arithmetic with explicit wraparound modulo `2 ^ 64`
  (`USIZE`, `subU`), and the implicit `int`-to-`size_t` conversions in the loop
  bounds are made explicit by `intToUSize`;
* the DFS writes through a cursor iterator into a pre-sized vector; the cursor
  writes are embedded as the list of written sequences in write order;
* unchecked index accesses (`std::iter_swap` past the end, `operator[]` on
  `std::array<T,0>`) have no defined C++ behaviour and are embedded as `none`.

Spec-level definitions (`wellFormedFrom`, `allSeqs`, `countSeqsGe`, `transp`,
`seqFun`) express the documented contracts — well-formed monotone sequences,
their cardinality, and the net permutation realised by a swap sequence — and the
theorems relate the embedded code to them.
-/

namespace uperm

/-- The modulus of C++ `size_t` arithmetic: `2 ^ 64`. -/
def USIZE : Nat := 18446744073709551616

/-- C++ `size_t` subtraction `a - b`: wraps around modulo `2 ^ 64`.
Faithful for operands in the `size_t` range (`a, b < 2 ^ 64`). -/
def subU (a b : Nat) : Nat := (a + USIZE - b) % USIZE

/-- Conversion of a C++ `int` value to `size_t` (two's complement wraparound),
as happens implicitly when a signed loop bound is compared with a `size_t`
loop variable. -/
def intToUSize (z : Int) : Nat := (z % (USIZE : Int)).toNat

/-- The C++ `struct index_permutation { size_t first; size_t second; };` — the indices
to permute (uperm.h:84-88). -/
structure index_permutation where
  first : Nat
  second : Nat
deriving DecidableEq, Repr

/-- Model of `num_unique_pairs_ge_min(N, MIN)` (uperm.h:97-100):
`(N-MIN > 0 && MIN <= N-2) ? (N-MIN)*(N-MIN-1)/2 : 0` in `size_t` arithmetic. -/
def num_unique_pairs_ge_min (N MIN : Nat) : Nat :=
  if 0 < subU N MIN ∧ MIN ≤ subU N 2 then
    subU N MIN * subU (subU N MIN) 1 % USIZE / 2
  else 0

/-- Model of `num_unique_pairs(N)` (uperm.h:103-105): `(N > 0) ? (N)*(N-1)/2 : 0`
in `size_t` arithmetic. -/
def num_unique_pairs (N : Nat) : Nat :=
  if 0 < N then N * subU N 1 % USIZE / 2 else 0

/-- Model of `num_unique_permutations_ge_min(N, L, MIN)` (uperm.h:115-129).
`L == 0` returns 1; otherwise if `MIN > N-2` (in `size_t`, so `N-2` wraps for
`N < 2`) returns 0; otherwise sums `(N-I-1) * num_unique_permutations_ge_min(N,L-1,I)`
for `I` from `MIN+1` to `N-2`, accumulating in `size_t`.  The C++ guard `L < 0`
is dead (`L` is `size_t`) and is dropped. -/
def num_unique_permutations_ge_min (N : Nat) : Nat → Nat → Nat
  | 0, _ => 1
  | L + 1, MIN =>
    if MIN > subU N 2 then 0
    else ((List.range' (MIN + 1) (subU N 2 - MIN)).map fun I =>
            subU (subU N I) 1 * num_unique_permutations_ge_min N L I).sum % USIZE

/-- Model of `num_unique_permutations(N, L)` (uperm.h:134-148).
`L == 0` returns 1; `L > N-1` (in `size_t`) returns 0; otherwise sums
`(N-I-1) * num_unique_permutations_ge_min(N,L-1,I)` for `I` from `0` to `N-2`,
accumulating in `size_t`. -/
def num_unique_permutations (N L : Nat) : Nat :=
  if L = 0 then 1
  else if L > subU N 1 then 0
  else ((List.range' 0 (subU N 2 + 1)).map fun I =>
          subU (subU N I) 1 * num_unique_permutations_ge_min N (L - 1) I).sum % USIZE

/-- Model of `std::iter_swap(OUT.begin()+i, OUT.begin()+j)` on a collection embedded as a
list: exchanges the elements at positions `i` and `j`.  An index at or past the
end dereferences an invalid iterator — no defined behaviour, embedded as `none`. -/
def swapPositions (l : List α) (i j : Nat) : Option (List α) :=
  if h : i < l.length ∧ j < l.length then
    some ((l.set i (l.get ⟨j, h.2⟩)).set j (l.get ⟨i, h.1⟩))
  else none

/-- Model of `execute_permutations<T,L>(PLIST, IN)` (uperm.h:161-169): copies `IN` and
performs the swaps of `PLIST` in sequence order on the copy.  The C++ function
takes `IN` by const reference and only mutates the copy `OUT`. -/
def execute_permutations (PLIST : List index_permutation) (IN : List α) :
    Option (List α) :=
  PLIST.foldl (fun OUT p => OUT.bind fun l => swapPositions l p.first p.second)
    (some IN)

/-- Model of `inner_permutation_loop<N,LMAX>(L, X, MIN, TMP, LIST_ELEMENT)` (uperm.h:180-196).
The cursor writes `*LIST_ELEMENT = TMP; LIST_ELEMENT++` are embedded as the list
of written sequences in write order.  The base-case test `X > LMAX-1` is over
C++ `int`, i.e. `X + 1 > LMAX` without truncation; the loop bound
`std::min(N - L, N - 1)` is computed over `int` and converted to `size_t` for
the comparison with `I`. -/
def inner_permutation_loop (N LMAX : Nat) (L : Int) (X : Nat) (MIN : Nat)
    (TMP : List index_permutation) : List (List index_permutation) :=
  if h : X + 1 > LMAX ∨ L < 0 then
    [TMP]
  else
    (List.range' MIN (intToUSize (min ((N : Int) - L) ((N : Int) - 1)) - MIN)).flatMap
      fun I =>
        (List.range' (I + 1) (N - (I + 1))).flatMap fun J =>
          inner_permutation_loop N LMAX (L - 1) (X + 1) (I + 1) (TMP.set X ⟨I, J⟩)
termination_by LMAX - X
decreasing_by omega

/-- Model of `get_all_unique_permutations<N,L>()` (uperm.h:231-251).  The output vector is
pre-sized to `num_unique_permutations(N,L)` and filled through a cursor iterator,
embedded as the list of written sequences.  For `L == 0` the code performs
`OUT[0][0] = {0,0}`, an index-0 access into the `std::array<index_permutation,L>`
of size `L = 0`; the access is bounds-checked in the embedding and yields `none`
when out of bounds.  `TMP` is an uninitialised `std::array`, embedded as a
`{0,0}`-filled buffer (every slot of an emitted sequence is overwritten before
the copy, so the initial contents never reach the output). -/
def get_all_unique_permutations (N L : Nat) :
    Option (List (List index_permutation)) :=
  if L = 0 then
    if 0 < L then some [(List.replicate L ⟨0, 0⟩).set 0 ⟨0, 0⟩] else none
  else
    some ((List.range' 0
        (intToUSize (min ((N : Int) - (L : Int)) ((N : Int) - 1)))).flatMap
      fun I =>
        (List.range' (I + 1) (N - (I + 1))).flatMap fun J =>
          inner_permutation_loop N L ((L : Int) - 1) 1 (I + 1)
            ((List.replicate L (⟨0, 0⟩ : index_permutation)).set 0 ⟨I, J⟩))

/-! ## Spec-level definitions -/

/-- A permutation-sequence is well formed from lower bound `MIN` when every pair
satisfies `first < second < N`, the `first` components are strictly increasing
along the sequence, and the leading `first` is at least `MIN` (spec section 3). -/
def wellFormedFrom (N : Nat) : Nat → List index_permutation → Bool
  | _, [] => true
  | MIN, p :: rest =>
    decide (MIN ≤ p.first) && decide (p.first < p.second) && decide (p.second < N)
      && wellFormedFrom N (p.first + 1) rest

/-- All index pairs with both components below `N` (the raw pair universe). -/
def allPairs (N : Nat) : List index_permutation :=
  (List.range N).flatMap fun i => (List.range N).map fun j => ⟨i, j⟩

/-- All length-`L` lists of raw index pairs over `N` indices. -/
def allSeqs (N : Nat) : Nat → List (List index_permutation)
  | 0 => [[]]
  | L + 1 => (allPairs N).flatMap fun p => (allSeqs N L).map fun s => p :: s

/-- The number of well-formed length-`L` permutation-sequences over `N` elements
whose first transposition's lower index is at least `MIN` — the spec's counting
contract, expressed by filtering the full sequence universe. -/
def countSeqsGe (N L MIN : Nat) : Nat :=
  ((allSeqs N L).filter fun s => wellFormedFrom N MIN s).length

/-- The mathematical generator of well-formed sequences: at each level choose a
lower index `I` from `MIN` up to (excluding) `N - rem` where `rem` levels remain,
an upper index `J` in `(I, N)`, and continue with lower bound `I + 1`. -/
def genSeqs (N : Nat) : Nat → Nat → List (List index_permutation)
  | 0, _ => [[]]
  | rem + 1, MIN =>
    (List.range' MIN (N - (rem + 1) - MIN)).flatMap fun I =>
      (List.range' (I + 1) (N - (I + 1))).flatMap fun J =>
        (genSeqs N rem (I + 1)).map fun s => (⟨I, J⟩ : index_permutation) :: s

/-- The transposition of positions `i` and `j` as a function on indices. -/
def transp (i j k : Nat) : Nat := if k = i then j else if k = j then i else k

/-- The net index permutation realised by applying the swaps of a sequence in
order: the element at position `k` of the result is the input element at
position `seqFun s k` (spec section 4.3). -/
def seqFun : List index_permutation → Nat → Nat
  | [], k => k
  | p :: rest, k => transp p.first p.second (seqFun rest k)

/-! ## Arithmetic and list-sum helper lemmas -/

theorem one_lt_USIZE : 1 < USIZE := by decide

theorem subU_of_le {a b : Nat} (hba : b ≤ a) (ha : a < USIZE) : subU a b = a - b := by
  unfold subU
  have h1 : a + USIZE - b = a - b + USIZE := by omega
  rw [h1, Nat.add_mod_right, Nat.mod_eq_of_lt (by omega)]

theorem sum_map_const_range' (c : Nat) :
    ∀ (n a : Nat), ((List.range' a n).map fun _ => c).sum = n * c
  | 0, _ => by simp
  | n + 1, a => by
    rw [List.range'_succ]
    simp only [List.map_cons, List.sum_cons]
    rw [sum_map_const_range' c n (a + 1)]
    ring

theorem sum_map_mod_congr {M : Nat} {f g : Nat → Nat} :
    ∀ (l : List Nat), (∀ i ∈ l, f i % M = g i % M) →
      (l.map f).sum % M = (l.map g).sum % M
  | [], _ => rfl
  | i :: l, h => by
    simp only [List.map_cons, List.sum_cons]
    rw [Nat.add_mod, Nat.add_mod (g i),
      h i (List.mem_cons_self i l),
      sum_map_mod_congr l (fun j hj => h j (List.mem_cons_of_mem _ hj))]

theorem sum_range'_drop_zeros {f : Nat → Nat} {s n2 : Nat} (n1 : Nat) (h21 : n2 ≤ n1)
    (hz : ∀ I, s + n2 ≤ I → I < s + n1 → f I = 0) :
    ((List.range' s n1).map f).sum = ((List.range' s n2).map f).sum := by
  have hsplit : List.range' s n2 ++ List.range' (s + n2) (n1 - n2) = List.range' s n1 := by
    have h := List.range'_append s n2 (n1 - n2) 1
    simp only [Nat.one_mul] at h
    rw [h]
    congr 1
    omega
  rw [← hsplit, List.map_append, List.sum_append]
  have hzero : ((List.range' (s + n2) (n1 - n2)).map f).sum = 0 := by
    apply List.sum_eq_zero
    intro x hx
    rw [List.mem_map] at hx
    obtain ⟨I, hI, rfl⟩ := hx
    rw [List.mem_range'_1] at hI
    exact hz I hI.1 (by omega)
  omega

/-! ## Well-formedness lemmas -/

theorem wf_nil (N MIN : Nat) : wellFormedFrom N MIN [] = true := rfl

theorem wf_cons {N MIN : Nat} {p : index_permutation} {rest : List index_permutation} :
    wellFormedFrom N MIN (p :: rest) = true ↔
      MIN ≤ p.first ∧ p.first < p.second ∧ p.second < N ∧
        wellFormedFrom N (p.first + 1) rest = true := by
  simp [wellFormedFrom, Bool.and_eq_true, decide_eq_true_eq, and_assoc]

theorem wf_mono {N : Nat} :
    ∀ {s : List index_permutation} {M M' : Nat}, M' ≤ M →
      wellFormedFrom N M s = true → wellFormedFrom N M' s = true
  | [], _, _, _, _ => rfl
  | p :: rest, M, M', hMM, h => by
    rw [wf_cons] at h ⊢
    exact ⟨by omega, h.2⟩

theorem wf_lb {N : Nat} :
    ∀ {s : List index_permutation} {M : Nat}, wellFormedFrom N M s = true →
      ∀ p ∈ s, M ≤ p.first
  | [], _, _, p, hp => absurd hp (List.not_mem_nil p)
  | q :: rest, M, h, p, hp => by
    rw [wf_cons] at h
    rcases List.mem_cons.mp hp with rfl | hp'
    · exact h.1
    · have := wf_lb h.2.2.2 p hp'
      omega

theorem wf_pairs {N : Nat} :
    ∀ {s : List index_permutation} {M : Nat}, wellFormedFrom N M s = true →
      ∀ p ∈ s, p.first < p.second ∧ p.second < N
  | [], _, _, p, hp => absurd hp (List.not_mem_nil p)
  | q :: rest, M, h, p, hp => by
    rw [wf_cons] at h
    rcases List.mem_cons.mp hp with rfl | hp'
    · exact ⟨h.2.1, h.2.2.1⟩
    · exact wf_pairs h.2.2.2 p hp'

theorem wf_len {N : Nat} :
    ∀ {s : List index_permutation} {M : Nat}, wellFormedFrom N M s = true →
      s ≠ [] → M + s.length < N
  | [], _, _, hne => absurd rfl hne
  | p :: rest, M, h, _ => by
    rw [wf_cons] at h
    rcases eq_or_ne rest [] with rfl | hne
    · simp only [List.length_cons, List.length_nil]
      omega
    · have := wf_len h.2.2.2 hne
      simp only [List.length_cons]
      omega

theorem wf_pairwise {N : Nat} :
    ∀ {s : List index_permutation} {M : Nat}, wellFormedFrom N M s = true →
      s.Pairwise fun a b => a.first + 1 ≤ b.first
  | [], _, _ => List.Pairwise.nil
  | p :: rest, M, h => by
    rw [wf_cons] at h
    exact List.Pairwise.cons (fun q hq => wf_lb h.2.2.2 q hq) (wf_pairwise h.2.2.2)

/-! ## Lemmas about the mathematical generator `genSeqs` -/

theorem genSeqs_nil {N L MIN : Nat} (hL : 1 ≤ L) (h : N - L ≤ MIN) :
    genSeqs N L MIN = [] := by
  obtain ⟨rem, rfl⟩ : ∃ rem, L = rem + 1 := ⟨L - 1, by omega⟩
  unfold genSeqs
  have hz : N - (rem + 1) - MIN = 0 := by omega
  rw [hz]
  rfl

theorem genSeqs_length_succ (N rem MIN : Nat) :
    (genSeqs N (rem + 1) MIN).length =
      ((List.range' MIN (N - (rem + 1) - MIN)).map fun I =>
        (N - (I + 1)) * (genSeqs N rem (I + 1)).length).sum := by
  show (List.flatMap _ _).length = _
  rw [List.length_flatMap]
  congr 1
  apply List.map_congr_left
  intro I _
  show (List.flatMap _ _).length = _
  rw [List.length_flatMap]
  have hc : List.map (List.length ∘ fun J =>
      (genSeqs N rem (I + 1)).map fun s => (⟨I, J⟩ : index_permutation) :: s)
        (List.range' (I + 1) (N - (I + 1)))
      = (List.range' (I + 1) (N - (I + 1))).map fun _ =>
          (genSeqs N rem (I + 1)).length := by
    apply List.map_congr_left
    intro J _
    simp [List.length_map]
  rw [hc, sum_map_const_range']

theorem mem_genSeqs {N : Nat} :
    ∀ {rem MIN : Nat} {s : List index_permutation},
      s ∈ genSeqs N rem MIN ↔ wellFormedFrom N MIN s = true ∧ s.length = rem
  | 0, MIN, s => by
    constructor
    · intro hs
      have : s = [] := by simpa [genSeqs] using hs
      subst this
      exact ⟨rfl, rfl⟩
    · rintro ⟨-, hlen⟩
      have : s = [] := List.length_eq_zero.mp hlen
      subst this
      simp [genSeqs]
  | rem + 1, MIN, s => by
    show s ∈ List.flatMap _ _ ↔ _
    rw [List.mem_flatMap]
    constructor
    · rintro ⟨I, hI, hs⟩
      rw [List.mem_flatMap] at hs
      obtain ⟨J, hJ, hs⟩ := hs
      rw [List.mem_map] at hs
      obtain ⟨t, ht, rfl⟩ := hs
      rw [List.mem_range'_1] at hI hJ
      obtain ⟨hwf, hlen⟩ := (@mem_genSeqs N rem (I + 1) t).mp ht
      refine ⟨wf_cons.mpr ⟨hI.1, by show I < J; omega, by show J < N; omega, hwf⟩,
        by simp [hlen]⟩
    · rintro ⟨hwf, hlen⟩
      match s, hlen with
      | p :: t, hlen =>
        rw [wf_cons] at hwf
        obtain ⟨hMIN, hps, hsN, hwft⟩ := hwf
        have hlent : t.length = rem := by simpa using hlen
        have hfirst : p.first + rem + 2 ≤ N := by
          rcases eq_or_ne t [] with rfl | hne
          · simp at hlent
            omega
          · have := wf_len hwft hne
            omega
        refine ⟨p.first, ?_, ?_⟩
        · rw [List.mem_range'_1]
          constructor
          · exact hMIN
          · omega
        · rw [List.mem_flatMap]
          refine ⟨p.second, ?_, ?_⟩
          · rw [List.mem_range'_1]
            omega
          · rw [List.mem_map]
            exact ⟨t, (@mem_genSeqs N rem (p.first + 1) t).mpr ⟨hwft, hlent⟩, by cases p; rfl⟩

theorem cons_injective (p : index_permutation) :
    Function.Injective fun s : List index_permutation => p :: s := by
  intro a b hab
  simpa using hab

theorem genSeqs_nodup (N : Nat) :
    ∀ (rem MIN : Nat), (genSeqs N rem MIN).Nodup
  | 0, MIN => by simp [genSeqs]
  | rem + 1, MIN => by
    show (List.flatMap _ _).Nodup
    rw [List.nodup_flatMap]
    constructor
    · intro I _
      rw [List.nodup_flatMap]
      constructor
      · intro J _
        exact (genSeqs_nodup N rem (I + 1)).map (cons_injective _)
      · apply List.Pairwise.imp ?_ (List.nodup_range' (I + 1) (N - (I + 1)))
        intro J J' hJJ
        intro x hx hx'
        rw [List.mem_map] at hx hx'
        obtain ⟨t, -, rfl⟩ := hx
        obtain ⟨t', -, h⟩ := hx'
        injection h with h1 h2
        injection h1 with h3 h4
        exact hJJ h4.symm
    · apply List.Pairwise.imp ?_ (List.nodup_range' MIN (N - (rem + 1) - MIN))
      intro I I' hII
      intro x hx hx'
      rw [List.mem_flatMap] at hx hx'
      obtain ⟨J, -, hx⟩ := hx
      obtain ⟨J', -, hx'⟩ := hx'
      rw [List.mem_map] at hx hx'
      obtain ⟨t, -, rfl⟩ := hx
      obtain ⟨t', -, h⟩ := hx'
      injection h with h1 h2
      injection h1 with h3 h4
      exact hII h3.symm

/-! ## Lemmas about the raw sequence universe and `countSeqsGe` -/

theorem mem_allPairs {N : Nat} {p : index_permutation} :
    p ∈ allPairs N ↔ p.first < N ∧ p.second < N := by
  unfold allPairs
  rw [List.mem_flatMap]
  constructor
  · rintro ⟨i, hi, hp⟩
    rw [List.mem_map] at hp
    obtain ⟨j, hj, rfl⟩ := hp
    rw [List.mem_range] at hi hj
    exact ⟨hi, hj⟩
  · rintro ⟨h1, h2⟩
    refine ⟨p.first, List.mem_range.mpr h1, ?_⟩
    rw [List.mem_map]
    exact ⟨p.second, List.mem_range.mpr h2, by cases p; rfl⟩

theorem allPairs_nodup (N : Nat) : (allPairs N).Nodup := by
  unfold allPairs
  rw [List.nodup_flatMap]
  constructor
  · intro i _
    apply List.Nodup.map ?_ (List.nodup_range N)
    intro a b hab
    injection hab with h1 h2
  · apply List.Pairwise.imp ?_ (List.nodup_range N)
    intro i i' hii x hx hx'
    rw [List.mem_map] at hx hx'
    obtain ⟨j, -, rfl⟩ := hx
    obtain ⟨j', -, h⟩ := hx'
    injection h with h1 h2
    exact hii h1.symm

theorem mem_allSeqs {N : Nat} :
    ∀ {L : Nat} {s : List index_permutation},
      s ∈ allSeqs N L ↔ s.length = L ∧ ∀ p ∈ s, p.first < N ∧ p.second < N
  | 0, s => by
    simp only [allSeqs, List.mem_singleton]
    constructor
    · rintro rfl
      exact ⟨rfl, by simp⟩
    · rintro ⟨hlen, -⟩
      exact List.length_eq_zero.mp hlen
  | L + 1, s => by
    simp only [allSeqs]
    rw [List.mem_flatMap]
    constructor
    · rintro ⟨p, hp, hs⟩
      rw [List.mem_map] at hs
      obtain ⟨t, ht, rfl⟩ := hs
      obtain ⟨hlen, hall⟩ := (@mem_allSeqs N L t).mp ht
      refine ⟨by simp [hlen], ?_⟩
      intro q hq
      rcases List.mem_cons.mp hq with rfl | hq'
      · exact mem_allPairs.mp hp
      · exact hall q hq'
    · rintro ⟨hlen, hall⟩
      match s, hlen with
      | p :: t, hlen =>
        refine ⟨p, mem_allPairs.mpr (hall p (List.mem_cons_self _ _)), ?_⟩
        rw [List.mem_map]
        refine ⟨t, (@mem_allSeqs N L t).mpr ⟨by simpa using hlen, ?_⟩, rfl⟩
        intro q hq
        exact hall q (List.mem_cons_of_mem _ hq)

theorem allSeqs_nodup (N : Nat) : ∀ (L : Nat), (allSeqs N L).Nodup
  | 0 => by simp [allSeqs]
  | L + 1 => by
    simp only [allSeqs]
    rw [List.nodup_flatMap]
    constructor
    · intro p _
      exact (allSeqs_nodup N L).map (cons_injective p)
    · apply List.Pairwise.imp ?_ (allPairs_nodup N)
      intro p p' hpp x hx hx'
      rw [List.mem_map] at hx hx'
      obtain ⟨t, -, rfl⟩ := hx
      obtain ⟨t', -, h⟩ := hx'
      injection h with h1 h2
      exact hpp h1.symm

theorem countSeqsGe_eq_length (N L MIN : Nat) :
    countSeqsGe N L MIN = (genSeqs N L MIN).length := by
  unfold countSeqsGe
  have h1 : ((allSeqs N L).filter fun s => wellFormedFrom N MIN s).Nodup :=
    (allSeqs_nodup N L).filter _
  have h2 := genSeqs_nodup N L MIN
  have hsub1 : ((allSeqs N L).filter fun s => wellFormedFrom N MIN s) ⊆
      genSeqs N L MIN := by
    intro s hs
    rw [List.mem_filter] at hs
    exact mem_genSeqs.mpr ⟨hs.2, (mem_allSeqs.mp hs.1).1⟩
  have hsub2 : genSeqs N L MIN ⊆
      (allSeqs N L).filter fun s => wellFormedFrom N MIN s := by
    intro s hs
    rw [mem_genSeqs] at hs
    rw [List.mem_filter]
    refine ⟨mem_allSeqs.mpr ⟨hs.2, ?_⟩, hs.1⟩
    intro p hp
    have := wf_pairs hs.1 p hp
    exact ⟨by omega, this.2⟩
  exact ((h1.subperm hsub1).antisymm (h2.subperm hsub2)).length_eq

/-! ## The counters compute the generator cardinalities (modulo `size_t` wrap) -/

theorem mul_mod_right_arg (a b M : Nat) : a * (b % M) % M = a * b % M := by
  rw [Nat.mul_mod, Nat.mod_mod_of_dvd b dvd_rfl, ← Nat.mul_mod]

theorem num_ge_min_eq {N : Nat} (hN : 2 ≤ N) (hN64 : N < USIZE) :
    ∀ (L MIN : Nat),
      num_unique_permutations_ge_min N L MIN = (genSeqs N L (MIN + 1)).length % USIZE
  | 0, MIN => by
    show (1 : Nat) = _
    have hgen : genSeqs N 0 (MIN + 1) = [[]] := rfl
    rw [hgen]
    show 1 = 1 % USIZE
    rw [Nat.mod_eq_of_lt one_lt_USIZE]
  | L + 1, MIN => by
    have hsub2 : subU N 2 = N - 2 := subU_of_le (by omega) hN64
    simp only [num_unique_permutations_ge_min, hsub2]
    by_cases hM : MIN > N - 2
    · rw [if_pos hM, genSeqs_nil (by omega) (by omega)]
      rfl
    · rw [if_neg hM]
      have hcongr :
          ((List.range' (MIN + 1) (N - 2 - MIN)).map fun I =>
            subU (subU N I) 1 * num_unique_permutations_ge_min N L I).sum % USIZE
          = ((List.range' (MIN + 1) (N - 2 - MIN)).map fun I =>
              (N - (I + 1)) * (genSeqs N L (I + 1)).length).sum % USIZE := by
        apply sum_map_mod_congr
        intro I hI
        rw [List.mem_range'_1] at hI
        have hI2 : I ≤ N - 2 := by omega
        have e1 : subU N I = N - I := subU_of_le (by omega) hN64
        have e2 : subU (N - I) 1 = N - (I + 1) := by
          rw [subU_of_le (by omega) (by omega)]
          omega
        rw [e1, e2, num_ge_min_eq hN hN64 L I, mul_mod_right_arg]
      rw [hcongr]
      have hz : ∀ I, (MIN + 1) + (N - (L + 1) - (MIN + 1)) ≤ I →
          I < (MIN + 1) + (N - 2 - MIN) →
          (N - (I + 1)) * (genSeqs N L (I + 1)).length = 0 := by
        intro I hI1 hI2
        rcases Nat.eq_zero_or_pos L with rfl | hL
        · omega
        · rw [genSeqs_nil hL (by omega), List.length_nil, Nat.mul_zero]
      rw [sum_range'_drop_zeros (N - 2 - MIN) (by omega) hz,
        ← genSeqs_length_succ N L (MIN + 1)]

theorem num_eq {N L : Nat} (hN64 : N < USIZE) (hL1 : 1 ≤ L) (hLN : L ≤ N - 1) :
    num_unique_permutations N L = (genSeqs N L 0).length % USIZE := by
  have hN : 2 ≤ N := by omega
  obtain ⟨L', rfl⟩ : ∃ L', L = L' + 1 := ⟨L - 1, by omega⟩
  have hsub1 : subU N 1 = N - 1 := subU_of_le (by omega) hN64
  have hsub2 : subU N 2 = N - 2 := subU_of_le (by omega) hN64
  unfold num_unique_permutations
  rw [if_neg (by omega : ¬ L' + 1 = 0), hsub1,
    if_neg (by omega : ¬ L' + 1 > N - 1), hsub2]
  have hrange : N - 2 + 1 = N - 1 := by omega
  rw [hrange]
  have hcongr :
      ((List.range' 0 (N - 1)).map fun I =>
        subU (subU N I) 1 * num_unique_permutations_ge_min N (L' + 1 - 1) I).sum % USIZE
      = ((List.range' 0 (N - 1)).map fun I =>
          (N - (I + 1)) * (genSeqs N L' (I + 1)).length).sum % USIZE := by
    apply sum_map_mod_congr
    intro I hI
    rw [List.mem_range'_1] at hI
    have hI2 : I ≤ N - 2 := by omega
    have e1 : subU N I = N - I := subU_of_le (by omega) hN64
    have e2 : subU (N - I) 1 = N - (I + 1) := by
      rw [subU_of_le (by omega) (by omega)]
      omega
    have e3 : L' + 1 - 1 = L' := rfl
    rw [e1, e2, e3, num_ge_min_eq hN hN64 L' I, mul_mod_right_arg]
  rw [hcongr]
  have hz : ∀ I, 0 + (N - (L' + 1) - 0) ≤ I → I < 0 + (N - 1) →
      (N - (I + 1)) * (genSeqs N L' (I + 1)).length = 0 := by
    intro I hI1 hI2
    rcases Nat.eq_zero_or_pos L' with rfl | hL
    · omega
    · rw [genSeqs_nil hL (by omega), List.length_nil, Nat.mul_zero]
  have hd := @sum_range'_drop_zeros
    (fun I => (N - (I + 1)) * (genSeqs N L' (I + 1)).length)
    0 (N - (L' + 1) - 0) (N - 1) (by omega) hz
  rw [hd, ← genSeqs_length_succ N L' 0]

/-! ## The enumerator produces exactly the generator output -/

theorem intToUSize_of_lt {z : Nat} (h : z < USIZE) : intToUSize (z : Int) = z := by
  unfold intToUSize
  rw [Int.emod_eq_of_lt (by positivity) (by exact_mod_cast h)]
  exact Int.toNat_natCast z

theorem bound_eval {N rem : Nat} (hrem1 : 1 ≤ rem) (hremN : rem ≤ N) (hN64 : N < USIZE) :
    intToUSize (min ((N : Int) - (rem : Int)) ((N : Int) - 1)) = N - rem := by
  have hmin : min ((N : Int) - (rem : Int)) ((N : Int) - 1) = (N : Int) - rem := by
    apply min_eq_left
    omega
  have hcast : (N : Int) - (rem : Int) = ((N - rem : Nat) : Int) := by omega
  rw [hmin, hcast, intToUSize_of_lt (by omega)]

theorem take_succ_set {α : Type} (p : α) :
    ∀ (l : List α) (X : Nat), X < l.length →
      (l.set X p).take (X + 1) = l.take X ++ [p]
  | [], X, h => absurd h (by simp)
  | a :: l, 0, _ => by simp
  | a :: l, X + 1, h => by
    rw [List.set_cons_succ, List.take_succ_cons, List.take_succ_cons,
      take_succ_set p l X (by simpa using h)]
    rfl

theorem inner_eq_genSeqs {N LMAX : Nat} (hN64 : N < USIZE) :
    ∀ (rem X MIN : Nat) (TMP : List index_permutation),
      X + rem = LMAX → LMAX ≤ N + X → TMP.length = LMAX →
      inner_permutation_loop N LMAX (rem : Int) X MIN TMP
        = (genSeqs N rem MIN).map fun s => TMP.take X ++ s
  | 0, X, MIN, TMP, hXL, hLN, hTMP => by
    unfold inner_permutation_loop
    rw [dif_pos (Or.inl (by omega))]
    have hgen : genSeqs N 0 MIN = [[]] := rfl
    rw [hgen, List.map_singleton, List.append_nil]
    have hX : X = TMP.length := by omega
    rw [hX, List.take_length]
  | rem + 1, X, MIN, TMP, hXL, hLN, hTMP => by
    unfold inner_permutation_loop
    rw [dif_neg (by push_neg; constructor <;> omega)]
    rw [bound_eval (by omega) (by omega) hN64]
    have hIH : ∀ I J,
        inner_permutation_loop N LMAX (((rem + 1 : Nat) : Int) - 1) (X + 1) (I + 1)
          (TMP.set X ⟨I, J⟩)
        = (genSeqs N rem (I + 1)).map fun s =>
            TMP.take X ++ ((⟨I, J⟩ : index_permutation) :: s) := by
      intro I J
      have hc : ((rem + 1 : Nat) : Int) - 1 = ((rem : Nat) : Int) := by push_cast; ring
      rw [hc, inner_eq_genSeqs hN64 rem (X + 1) (I + 1) _ (by omega) (by omega)
        (by rw [List.length_set, hTMP])]
      apply List.map_congr_left
      intro s _
      rw [take_succ_set _ _ _ (by omega), List.append_assoc, List.singleton_append]
    have hgen : genSeqs N (rem + 1) MIN =
        (List.range' MIN (N - (rem + 1) - MIN)).flatMap fun I =>
          (List.range' (I + 1) (N - (I + 1))).flatMap fun J =>
            (genSeqs N rem (I + 1)).map fun s =>
              (⟨I, J⟩ : index_permutation) :: s := rfl
    rw [hgen, List.map_flatMap]
    apply congrArg
    funext I
    rw [List.map_flatMap]
    apply congrArg
    funext J
    rw [hIH I J, List.map_map]
    rfl

theorem inner_no_output {N LMAX : Nat} :
    ∀ (rem X MIN : Nat) (TMP : List index_permutation),
      X + rem = LMAX → X < LMAX → N ≤ MIN + rem →
      inner_permutation_loop N LMAX (rem : Int) X MIN TMP = []
  | 0, X, MIN, TMP, hXL, hX, hN => by omega
  | rem + 1, X, MIN, TMP, hXL, hX, hN => by
    unfold inner_permutation_loop
    rw [dif_neg (by push_neg; constructor <;> omega)]
    apply List.flatMap_eq_nil_iff.mpr
    intro I hI
    apply List.flatMap_eq_nil_iff.mpr
    intro J hJ
    rw [List.mem_range'_1] at hI hJ
    have hc : ((rem + 1 : Nat) : Int) - 1 = ((rem : Nat) : Int) := by push_cast; ring
    rw [hc]
    rcases Nat.eq_zero_or_pos rem with rfl | hrem
    · -- one slot remains but every candidate lower index is already at least N - 1,
      -- so no upper index J below N can exist
      omega
    · exact inner_no_output rem (X + 1) (I + 1) _ (by omega) (by omega) (by omega)

theorem get_all_eq {N L : Nat} (hN : 1 ≤ N) (hN64 : N < USIZE) (hL : 1 ≤ L) :
    get_all_unique_permutations N L = some (genSeqs N L 0) := by
  unfold get_all_unique_permutations
  rw [if_neg (by omega : ¬ L = 0)]
  congr 1
  by_cases hLN : L ≤ N
  · rw [bound_eval hL hLN hN64]
    obtain ⟨L', rfl⟩ : ∃ L', L = L' + 1 := ⟨L - 1, by omega⟩
    have hgen : genSeqs N (L' + 1) 0 =
        (List.range' 0 (N - (L' + 1) - 0)).flatMap fun I =>
          (List.range' (I + 1) (N - (I + 1))).flatMap fun J =>
            (genSeqs N L' (I + 1)).map fun s =>
              (⟨I, J⟩ : index_permutation) :: s := rfl
    rw [hgen, Nat.sub_zero]
    apply congrArg
    funext I
    apply congrArg
    funext J
    have hc : ((L' + 1 : Nat) : Int) - 1 = ((L' : Nat) : Int) := by push_cast; ring
    rw [hc, inner_eq_genSeqs hN64 L' 1 (I + 1) _ (by omega) (by omega) (by simp)]
    apply List.map_congr_left
    intro s _
    rw [take_succ_set _ _ _ (by simp), List.append_assoc, List.singleton_append]
    rfl
  · push_neg at hLN
    rw [genSeqs_nil hL (by omega)]
    apply List.flatMap_eq_nil_iff.mpr
    intro I hI
    apply List.flatMap_eq_nil_iff.mpr
    intro J hJ
    have hc : ((L : Nat) : Int) - 1 = ((L - 1 : Nat) : Int) := by omega
    rw [hc]
    exact inner_no_output (L - 1) 1 (I + 1) _ (by omega) (by omega) (by omega)

/-! ## Executor lemmas -/

theorem swapPositions_some {l : List α} {i j : Nat} (hi : i < l.length)
    (hj : j < l.length) :
    swapPositions l i j = some ((l.set i (l.get ⟨j, hj⟩)).set j (l.get ⟨i, hi⟩)) := by
  unfold swapPositions
  rw [dif_pos ⟨hi, hj⟩]

theorem swapPositions_none {l : List α} {i j : Nat}
    (h : l.length ≤ i ∨ l.length ≤ j) : swapPositions l i j = none := by
  unfold swapPositions
  rw [dif_neg (by omega)]

theorem swapPositions_length {l l' : List α} {i j : Nat}
    (h : swapPositions l i j = some l') : l'.length = l.length := by
  unfold swapPositions at h
  split at h
  · injection h with h'
    rw [← h', List.length_set, List.length_set]
  · exact absurd h (by simp)

theorem swapPositions_getElem? {l l' : List α} {i j : Nat}
    (h : swapPositions l i j = some l') (k : Nat) :
    l'[k]? = l[transp i j k]? := by
  unfold swapPositions at h
  split at h
  case isTrue hb =>
    injection h with h'
    subst h'
    unfold transp
    rw [List.getElem?_set, List.getElem?_set]
    rw [List.length_set]
    by_cases hkj : k = j
    · subst hkj
      rw [if_pos rfl, if_pos hb.2]
      by_cases hki : k = i
      · rw [if_pos hki, List.getElem?_eq_getElem hb.2, List.get_eq_getElem]
        subst hki
        rfl
      · rw [if_neg hki, if_pos rfl, List.getElem?_eq_getElem hb.1,
          List.get_eq_getElem]
    · rw [if_neg fun hjk => hkj hjk.symm]
      by_cases hki : k = i
      · subst hki
        rw [if_pos rfl, if_pos hb.1, if_pos rfl,
          List.getElem?_eq_getElem hb.2, List.get_eq_getElem]
      · rw [if_neg fun hik => hki hik.symm, if_neg hki, if_neg hkj]
  case isFalse => exact absurd h (by simp)

theorem foldl_swaps_none :
    ∀ (PLIST : List index_permutation),
      PLIST.foldl (fun (OUT : Option (List α)) p =>
        OUT.bind fun l => swapPositions l p.first p.second) none = none
  | [] => rfl
  | _ :: rest => foldl_swaps_none rest

theorem execute_cons_some {p : index_permutation} {PLIST : List index_permutation}
    {IN l1 : List α} (h : swapPositions IN p.first p.second = some l1) :
    execute_permutations (p :: PLIST) IN = execute_permutations PLIST l1 := by
  show PLIST.foldl _ ((some IN).bind _) = _
  rw [Option.some_bind, h]
  rfl

theorem execute_cons_none {p : index_permutation} {PLIST : List index_permutation}
    {IN : List α} (h : swapPositions IN p.first p.second = none) :
    execute_permutations (p :: PLIST) IN = none := by
  show PLIST.foldl _ ((some IN).bind _) = _
  rw [Option.some_bind, h]
  exact foldl_swaps_none PLIST

theorem execute_eq_some :
    ∀ (s : List index_permutation) (IN : List α),
      (∀ p ∈ s, p.first < IN.length ∧ p.second < IN.length) →
      ∃ OUT, execute_permutations s IN = some OUT ∧ OUT.length = IN.length ∧
        ∀ k, OUT[k]? = IN[seqFun s k]?
  | [], IN, _ => ⟨IN, rfl, rfl, fun k => rfl⟩
  | p :: rest, IN, hb => by
    have hp := hb p (List.mem_cons_self _ _)
    have hsw := swapPositions_some hp.1 hp.2
    have hlen1 : ((IN.set p.first (IN.get ⟨p.second, hp.2⟩)).set p.second
        (IN.get ⟨p.first, hp.1⟩)).length = IN.length := swapPositions_length hsw
    obtain ⟨OUT, h1, h2, h3⟩ := execute_eq_some rest _
      (fun q hq => hlen1 ▸ hb q (List.mem_cons_of_mem _ hq))
    refine ⟨OUT, ?_, by rw [h2, hlen1], ?_⟩
    · rw [execute_cons_some hsw, h1]
    · intro k
      rw [h3 k, swapPositions_getElem? hsw]
      rfl

theorem execute_eq_none :
    ∀ (s : List index_permutation) (IN : List α),
      (∃ p ∈ s, IN.length ≤ p.first ∨ IN.length ≤ p.second) →
      execute_permutations s IN = none
  | [], IN, h => absurd h (by simp)
  | p :: rest, IN, h => by
    by_cases hp : p.first < IN.length ∧ p.second < IN.length
    · have hsw := swapPositions_some hp.1 hp.2
      rw [execute_cons_some hsw]
      apply execute_eq_none rest
      obtain ⟨q, hq, hqb⟩ := h
      rcases List.mem_cons.mp hq with rfl | hq'
      · omega
      · exact ⟨q, hq', by rw [swapPositions_length hsw]; exact hqb⟩
    · exact execute_cons_none (swapPositions_none (by omega))

/-! ## The net permutation of a well-formed sequence determines the sequence -/

theorem transp_invol (i j x : Nat) : transp i j (transp i j x) = x := by
  unfold transp
  split_ifs <;> omega

theorem transp_lt {i j N k : Nat} (hi : i < N) (hj : j < N) (hk : k < N) :
    transp i j k < N := by
  unfold transp
  split_ifs <;> omega

theorem transp_fix_ge {i j N k : Nat} (hi : i < N) (hj : j < N) (hk : N ≤ k) :
    transp i j k = k := by
  unfold transp
  split_ifs <;> omega

theorem seqFun_lt {N : Nat} :
    ∀ {s : List index_permutation},
      (∀ p ∈ s, p.first < N ∧ p.second < N) → ∀ {k}, k < N → seqFun s k < N
  | [], _, _, hk => hk
  | p :: rest, hb, k, hk => by
    show transp p.first p.second (seqFun rest k) < N
    have hp := hb p (List.mem_cons_self _ _)
    exact transp_lt hp.1 hp.2
      (seqFun_lt (fun q hq => hb q (List.mem_cons_of_mem _ hq)) hk)

theorem seqFun_fix_ge {N : Nat} :
    ∀ {s : List index_permutation},
      (∀ p ∈ s, p.first < N ∧ p.second < N) → ∀ {k}, N ≤ k → seqFun s k = k
  | [], _, _, _ => rfl
  | p :: rest, hb, k, hk => by
    show transp p.first p.second (seqFun rest k) = k
    have hp := hb p (List.mem_cons_self _ _)
    rw [seqFun_fix_ge (fun q hq => hb q (List.mem_cons_of_mem _ hq)) hk]
    exact transp_fix_ge hp.1 hp.2 hk

theorem seqFun_fix_low {N : Nat} :
    ∀ {s : List index_permutation} {M k : Nat},
      wellFormedFrom N M s = true → k < M → seqFun s k = k
  | [], _, _, _, _ => rfl
  | p :: rest, M, k, h, hk => by
    rw [wf_cons] at h
    show transp p.first p.second (seqFun rest k) = k
    rw [seqFun_fix_low h.2.2.2 (by omega)]
    unfold transp
    rw [if_neg (by omega), if_neg (by omega)]

theorem seqFun_fix_lt_head {N M : Nat} {p : index_permutation}
    {rest : List index_permutation} {k : Nat}
    (h : wellFormedFrom N M (p :: rest) = true) (hk : k < p.first) :
    seqFun (p :: rest) k = k := by
  rw [wf_cons] at h
  show transp p.first p.second (seqFun rest k) = k
  rw [seqFun_fix_low h.2.2.2 (by omega)]
  unfold transp
  rw [if_neg (by omega), if_neg (by omega)]

theorem seqFun_head {N M : Nat} {p : index_permutation}
    {rest : List index_permutation}
    (h : wellFormedFrom N M (p :: rest) = true) :
    seqFun (p :: rest) p.first = p.second := by
  rw [wf_cons] at h
  show transp p.first p.second (seqFun rest p.first) = p.second
  rw [seqFun_fix_low h.2.2.2 (by omega)]
  unfold transp
  rw [if_pos rfl]

theorem wf_seqFun_inj {N : Nat} :
    ∀ {s s' : List index_permutation} {M M' : Nat},
      wellFormedFrom N M s = true → wellFormedFrom N M' s' = true →
      (∀ k, seqFun s k = seqFun s' k) → s = s'
  | [], [], _, _, _, _, _ => rfl
  | [], p' :: t', M, M', h, h', heq => by
    exfalso
    have h1 := (heq p'.first).symm
    rw [seqFun_head h'] at h1
    have h2 := wf_cons.mp h'
    show False
    have : seqFun [] p'.first = p'.first := rfl
    omega
  | p :: t, [], M, M', h, h', heq => by
    exfalso
    have h1 := heq p.first
    rw [seqFun_head h] at h1
    have h2 := wf_cons.mp h
    have : seqFun [] p.first = p.first := rfl
    omega
  | p :: t, p' :: t', M, M', h, h', heq => by
    have hwc := wf_cons.mp h
    have hwc' := wf_cons.mp h'
    have hii : p.first = p'.first := by
      rcases Nat.lt_trichotomy p.first p'.first with hlt | heqi | hgt
      · exfalso
        have h1 := heq p.first
        rw [seqFun_head h, seqFun_fix_lt_head h' hlt] at h1
        omega
      · exact heqi
      · exfalso
        have h1 := heq p'.first
        rw [seqFun_head h', seqFun_fix_lt_head h hgt] at h1
        omega
    have hjj : p.second = p'.second := by
      have h1 := heq p.first
      rw [seqFun_head h] at h1
      rw [hii] at h1
      rw [seqFun_head h'] at h1
      exact h1
    have htails : ∀ k, seqFun t k = seqFun t' k := by
      intro k
      have h1 := heq k
      show seqFun t k = seqFun t' k
      have h2 : transp p.first p.second (seqFun t k)
          = transp p'.first p'.second (seqFun t' k) := h1
      rw [← hii, ← hjj] at h2
      have h3 := congrArg (transp p.first p.second) h2
      rwa [transp_invol, transp_invol] at h3
    have htt : t = t' := wf_seqFun_inj hwc.2.2.2 hwc'.2.2.2 htails
    have hpp : p = p' := by
      cases p
      cases p'
      simp only [index_permutation.mk.injEq]
      exact ⟨hii, hjj⟩
    rw [hpp, htt]

theorem execute_inj {α : Type} {N : Nat} {REF : List α} (hlen : REF.length = N)
    (hnd : REF.Nodup) {s s' : List index_permutation} {M M' : Nat}
    (hs : wellFormedFrom N M s = true) (hs' : wellFormedFrom N M' s' = true)
    (heq : execute_permutations s REF = execute_permutations s' REF) : s = s' := by
  have hbN : ∀ p ∈ s, p.first < N ∧ p.second < N := by
    intro p hp
    have := wf_pairs hs p hp
    omega
  have hbN' : ∀ p ∈ s', p.first < N ∧ p.second < N := by
    intro p hp
    have := wf_pairs hs' p hp
    omega
  have hbs : ∀ p ∈ s, p.first < REF.length ∧ p.second < REF.length := by
    rw [hlen]
    exact hbN
  have hbs' : ∀ p ∈ s', p.first < REF.length ∧ p.second < REF.length := by
    rw [hlen]
    exact hbN'
  obtain ⟨OUT, h1, h2, h3⟩ := execute_eq_some s REF hbs
  obtain ⟨OUT', h1', h2', h3'⟩ := execute_eq_some s' REF hbs'
  rw [h1, h1'] at heq
  injection heq with hOUT
  apply wf_seqFun_inj hs hs'
  intro k
  by_cases hk : k < N
  · have e : REF[seqFun s k]? = REF[seqFun s' k]? := by
      rw [← h3 k, ← h3' k, hOUT]
    have hf : seqFun s k < REF.length := by
      rw [hlen]
      exact seqFun_lt hbN hk
    have hf' : seqFun s' k < REF.length := by
      rw [hlen]
      exact seqFun_lt hbN' hk
    rw [List.getElem?_eq_getElem hf, List.getElem?_eq_getElem hf'] at e
    injection e with e'
    have hinj := List.nodup_iff_injective_get.mp hnd
    have hfin : (⟨seqFun s k, hf⟩ : Fin REF.length) = ⟨seqFun s' k, hf'⟩ := by
      apply hinj
      rw [List.get_eq_getElem, List.get_eq_getElem]
      exact e'
    exact congrArg Fin.val hfin
  · rw [seqFun_fix_ge hbN (by omega), seqFun_fix_ge hbN' (by omega)]

/-! ## Claim theorems -/

/-- Claim C1, counterexample: at N = 2, L = 0 (which the claim's range
`0 ≤ L ≤ N-1` includes) the enumeration does not produce the claimed
single-sequence result: the sentinel write `OUT[0][0] = {0,0}` indexes a
`std::array` of size 0, so the call has no defined result (`none` in the
embedding). -/
theorem C1_counterexample : get_all_unique_permutations 2 0 = none := rfl

/-- Claim C1 (amended): for representable `N ≥ 1` and `1 ≤ L ≤ N-1`, when the
true sequence count fits in `size_t`, the enumeration returns an ordered
sequence of exactly `num_unique_permutations N L` elements, each a sequence of
exactly `L` index pairs; and for `L > N-1` it returns an empty result.  The
`L = 0` case is removed: there the code writes out of bounds. -/
theorem C1_enumeration_length :
    ∀ (N L : Nat), 1 ≤ N → N < USIZE → 1 ≤ L →
      (L ≤ N - 1 → countSeqsGe N L 0 < USIZE →
        ∃ out, get_all_unique_permutations N L = some out ∧
          out.length = num_unique_permutations N L ∧ ∀ s ∈ out, s.length = L) ∧
      (N - 1 < L → get_all_unique_permutations N L = some []) := by
  intro N L hN hN64 hL
  constructor
  · intro hLN hcount
    refine ⟨genSeqs N L 0, get_all_eq hN hN64 hL, ?_, ?_⟩
    · have hlen : (genSeqs N L 0).length < USIZE := by
        rw [← countSeqsGe_eq_length]
        exact hcount
      rw [num_eq hN64 hL hLN, Nat.mod_eq_of_lt hlen]
    · intro s hs
      exact (mem_genSeqs.mp hs).2
  · intro hNL
    rw [get_all_eq hN hN64 hL, genSeqs_nil hL (by omega)]

/-- Witness for C1 at N = 4, L = 2 (count 11). -/
theorem C1_enumeration_length_witness :
    ∃ out, get_all_unique_permutations 4 2 = some out ∧
      out.length = num_unique_permutations 4 2 ∧ ∀ s ∈ out, s.length = 2 :=
  (C1_enumeration_length 4 2 (by decide) (by decide) (by decide)).1
    (by decide) (by decide)

/-- Claim C2: for every `N ≥ 1`, `1 ≤ L ≤ N-1` and reference collection of `N`
distinct elements, when the true sequence count fits in `size_t` (so the
pre-sized output vector is not overrun and the enumeration is defined),
executing every enumerated sequence yields pairwise-distinct output
collections: no two produced sequences realise the same net permutation. -/
theorem C2_unique_results {α : Type} :
    ∀ (N L : Nat) (REF : List α), 1 ≤ N → N < USIZE → 1 ≤ L → L ≤ N - 1 →
      countSeqsGe N L 0 < USIZE →
      REF.length = N → REF.Nodup →
      ∃ out, get_all_unique_permutations N L = some out ∧
        List.Pairwise (fun s1 s2 =>
          execute_permutations s1 REF ≠ execute_permutations s2 REF) out := by
  intro N L REF hN hN64 hL hLN hcount hlen hnd
  refine ⟨genSeqs N L 0, get_all_eq hN hN64 hL, ?_⟩
  apply List.Pairwise.imp_of_mem ?_ (genSeqs_nodup N L 0)
  intro s1 s2 hs1 hs2 hne heq
  exact hne (execute_inj hlen hnd (mem_genSeqs.mp hs1).1 (mem_genSeqs.mp hs2).1 heq)

/-- Witness for C2 at N = 3, L = 1 over the reference collection [10, 20, 30]. -/
theorem C2_unique_results_witness :
    ∃ out, get_all_unique_permutations 3 1 = some out ∧
      List.Pairwise (fun s1 s2 =>
        execute_permutations s1 [10, 20, 30] ≠ execute_permutations s2 [10, 20, 30])
        out :=
  C2_unique_results 3 1 [10, 20, 30] (by decide) (by decide) (by decide) (by decide)
    (by decide) (by decide) (by decide)

/-- Claim C3: for in-bounds pairs the executor succeeds and returns the
collection obtained from a copy of the input by applying the swaps in sequence
order — elementwise, position `k` of the output holds the input element at
position `seqFun PLIST k`, the net index permutation of the sequence.  The
input is passed by const reference and only the copy is mutated; the embedding
is pure, so the input collection is unchanged by construction. -/
theorem C3_executor_semantics {α : Type} :
    ∀ (PLIST : List index_permutation) (IN : List α),
      (∀ p ∈ PLIST, p.first < IN.length ∧ p.second < IN.length) →
      ∃ OUT, execute_permutations PLIST IN = some OUT ∧
        OUT.length = IN.length ∧ ∀ k, OUT[k]? = IN[seqFun PLIST k]? :=
  fun PLIST IN hb => execute_eq_some PLIST IN hb

/-- Witness for C3: the sequence [(0,1), (1,2)] applied to [10, 20, 30]. -/
theorem C3_executor_semantics_witness :
    ∃ OUT,
      execute_permutations [(⟨0, 1⟩ : index_permutation), ⟨1, 2⟩] [10, 20, 30]
        = some OUT ∧
      OUT.length = ([10, 20, 30] : List Nat).length ∧
      ∀ k, OUT[k]? = ([10, 20, 30] : List Nat)[seqFun [⟨0, 1⟩, ⟨1, 2⟩] k]? :=
  C3_executor_semantics [⟨0, 1⟩, ⟨1, 2⟩] [10, 20, 30] (by decide)

/-- Claim C4: the L = 0 sentinel write is NOT in bounds — this records the code
bug.  The counter sizes the output to one sequence
(`num_unique_permutations 4 0 = 1`), but that sequence is a
`std::array<index_permutation, 0>` of length 0, so `OUT[0][0] = {0,0}` indexes
past its end and the enumeration has no defined result. -/
theorem C4_l0_write_out_of_bounds :
    get_all_unique_permutations 4 0 = none ∧ num_unique_permutations 4 0 = 1 :=
  ⟨rfl, rfl⟩

/-- Claim C5, counterexample: `num_unique_permutations_ge_min 3 1 0 = 1`, but
there are three well-formed length-1 sequences over 3 elements whose first
lower index is ≥ 0 (namely (0,1), (0,2), (1,2)): the function counts sequences
with first lower index strictly greater than MIN. -/
theorem C5_counterexample :
    num_unique_permutations_ge_min 3 1 0 = 1 ∧ countSeqsGe 3 1 0 = 3 := by
  constructor
  · decide
  · decide

/-- Claim C5 (amended): for `2 ≤ N` in the `size_t` range,
`num_unique_permutations_ge_min N L MIN` equals, modulo 2^64, the number of
well-formed length-`L` sequences whose first transposition's lower index is
at least `MIN + 1` (not `MIN`); it returns 1 when `L = 0` and 0 when `L ≥ 1`
and `MIN > N - 2`. -/
theorem C5_ge_min_counts :
    ∀ (N L MIN : Nat), 2 ≤ N → N < USIZE →
      num_unique_permutations_ge_min N L MIN = countSeqsGe N L (MIN + 1) % USIZE ∧
      num_unique_permutations_ge_min N 0 MIN = 1 ∧
      (1 ≤ L → N - 2 < MIN → num_unique_permutations_ge_min N L MIN = 0) := by
  intro N L MIN hN hN64
  refine ⟨?_, rfl, ?_⟩
  · rw [num_ge_min_eq hN hN64, countSeqsGe_eq_length]
  · intro hL hMIN
    obtain ⟨L', rfl⟩ : ∃ L', L = L' + 1 := ⟨L - 1, by omega⟩
    simp only [num_unique_permutations_ge_min]
    rw [subU_of_le (by omega) hN64, if_pos (by omega)]

/-- Witness for C5 at N = 4, L = 2, MIN = 0. -/
theorem C5_ge_min_counts_witness :
    num_unique_permutations_ge_min 4 2 0 = countSeqsGe 4 2 1 % USIZE :=
  (C5_ge_min_counts 4 2 0 (by decide) (by decide)).1

/-- Claim C6: when the true sequence count fits in `size_t` (so the pre-sized
output vector is not overrun and the enumeration is defined), every enumerated
sequence is well formed: each pair has `first < second ≤ N-1`, and along the
sequence each later pair's lower index exceeds every earlier pair's lower index
by at least one. -/
theorem C6_well_formed :
    ∀ (N L : Nat), 1 ≤ N → N < USIZE → 1 ≤ L → L ≤ N - 1 →
      countSeqsGe N L 0 < USIZE →
      ∃ out, get_all_unique_permutations N L = some out ∧
        ∀ s ∈ out,
          (∀ p ∈ s, p.first < p.second ∧ p.second ≤ N - 1) ∧
          s.Pairwise fun a b => a.first + 1 ≤ b.first := by
  intro N L hN hN64 hL hLN hcount
  refine ⟨genSeqs N L 0, get_all_eq hN hN64 hL, ?_⟩
  intro s hs
  have hwf := (mem_genSeqs.mp hs).1
  constructor
  · intro p hp
    have := wf_pairs hwf p hp
    exact ⟨this.1, by omega⟩
  · exact wf_pairwise hwf

/-- Witness for C6 at N = 3, L = 2 (count 2). -/
theorem C6_well_formed_witness :
    ∃ out, get_all_unique_permutations 3 2 = some out ∧
      ∀ s ∈ out,
        (∀ p ∈ s, p.first < p.second ∧ p.second ≤ 3 - 1) ∧
        s.Pairwise fun a b => a.first + 1 ≤ b.first :=
  C6_well_formed 3 2 (by decide) (by decide) (by decide) (by decide) (by decide)

/-- Claim C7: an index pair whose component is outside the collection's bounds
makes the executor fail (the unchecked `std::iter_swap` past the end has no
defined result, embedded as `none`); no result is returned and the indices are
never clamped. -/
theorem C7_out_of_bounds_fails {α : Type} :
    ∀ (PLIST : List index_permutation) (IN : List α),
      (∃ p ∈ PLIST, IN.length ≤ p.first ∨ IN.length ≤ p.second) →
      execute_permutations PLIST IN = none :=
  fun PLIST IN h => execute_eq_none PLIST IN h

/-- Witness for C7: the pair (0,5) against a 3-element collection. -/
theorem C7_out_of_bounds_fails_witness :
    execute_permutations [(⟨0, 5⟩ : index_permutation)] [10, 20, 30]
      = (none : Option (List Nat)) :=
  C7_out_of_bounds_fails [⟨0, 5⟩] [10, 20, 30] (by decide)

/-- Claim C8, counterexample: at N = 0 the counters do NOT all return 0: the
`L = 0` base case precedes every guard on N, so both permutation counters
return 1, and the unsigned wrap of `N - MIN` makes
`num_unique_pairs_ge_min 0 1` return 1. -/
theorem C8_counterexample :
    num_unique_permutations 0 0 = 1 ∧
      num_unique_permutations_ge_min 0 0 5 = 1 ∧
      num_unique_pairs_ge_min 0 1 = 1 := by
  refine ⟨rfl, rfl, ?_⟩
  decide

/-- Claim C8 (amended): at N = 0 the pair counters return 0 when MIN = 0
(`num_unique_pairs 0 = 0`, `num_unique_pairs_ge_min 0 0 = 0`), but the
permutation counters return 1 for L = 0 because the base case is checked
before any arithmetic guard. -/
theorem C8_n_zero :
    num_unique_pairs 0 = 0 ∧ num_unique_pairs_ge_min 0 0 = 0 ∧
      (∀ MIN, num_unique_permutations_ge_min 0 0 MIN = 1) ∧
      num_unique_permutations 0 0 = 1 :=
  ⟨rfl, by decide, fun _ => rfl, rfl⟩

/-- Claim C9: for every representable `N ≥ 1`, `num_unique_permutations N 0 = 1`
and `num_unique_permutations N L = 0` whenever `L > N - 1`. -/
theorem C9_base_and_empty :
    ∀ (N : Nat), 1 ≤ N → N < USIZE →
      num_unique_permutations N 0 = 1 ∧
      ∀ L, N - 1 < L → num_unique_permutations N L = 0 := by
  intro N hN hN64
  constructor
  · rfl
  · intro L hL
    unfold num_unique_permutations
    rw [if_neg (by omega), subU_of_le (by omega) hN64, if_pos (by omega)]

/-- Witness for C9 at N = 5 with L = 7. -/
theorem C9_base_and_empty_witness :
    num_unique_permutations 5 0 = 1 ∧ num_unique_permutations 5 7 = 0 :=
  ⟨(C9_base_and_empty 5 (by decide) (by decide)).1,
    (C9_base_and_empty 5 (by decide) (by decide)).2 7 (by decide)⟩

/-- Claim C10: the intended L = 0 behaviour (one identity sequence) is broken
by the out-of-bounds sentinel write: at N = 6, L = 0 the enumeration has no
defined result, although executing the documented sentinel sequence [(0,0)]
would indeed leave a collection unchanged (a self-swap is a no-op). -/
theorem C10_l0_identity_bug :
    get_all_unique_permutations 6 0 = none ∧
      execute_permutations [(⟨0, 0⟩ : index_permutation)] [10, 20, 30]
        = some [10, 20, 30] := by
  constructor
  · rfl
  · decide


end uperm
